import Mathlib

/-!
Verification of the event deduplication and identity core of the
nyc-event-automation repository (src/data_store/models.py).

The Python code is shallowly embedded: strings are the Lean String type
(a wrapped list of characters), Python datetime values are a structure of
numeric fields to second precision, the Python float similarity score is
modelled as a rational number (the comparisons performed by the code are
far from the representation boundary), the Python dict used as the
identifier index is modelled by its observable lookup function, and the
MD5 hash from hashlib is implemented directly from its standard
definition (RFC 1321).
-/

namespace NycEvents

/-! ## Python string semantics: whitespace, split, join, strip -/

/-- The set of characters the Python str.split and str.strip treat as
whitespace (characters for which str.isspace returns true). -/
def isPySpace (c : Char) : Bool :=
  [' ', '\t', '\n', '\x0b', '\x0c', '\r',
   '\x1c', '\x1d', '\x1e', '\x1f', '\x85', '\xa0',
   '\u1680', '\u2000', '\u2001', '\u2002', '\u2003', '\u2004', '\u2005',
   '\u2006', '\u2007', '\u2008', '\u2009', '\u200a',
   '\u2028', '\u2029', '\u202f', '\u205f', '\u3000'].contains c

/-- Accumulator-based worker for the Python str.split() with no
arguments: maximal runs of non-whitespace characters, with all
whitespace discarded.  The accumulator holds the current word reversed. -/
def splitAux : List Char → List Char → List (List Char)
  | [], acc => if acc = [] then [] else [acc.reverse]
  | c :: rest, acc =>
    if isPySpace c then
      if acc = [] then splitAux rest [] else acc.reverse :: splitAux rest []
    else
      splitAux rest (c :: acc)

/-- Python text.split() with no arguments. -/
def pySplit (l : List Char) : List (List Char) := splitAux l []

/-- Python chr(32).join(words): words joined by single spaces. -/
def joinSpace : List (List Char) → List Char
  | [] => []
  | [w] => w
  | w :: ws => w ++ ' ' :: joinSpace ws

/-- The character filter of EventModel.clean_text: keep characters with
ordinal value at least 32, and keep the newline character. -/
def keepPrintable (l : List Char) : List Char :=
  l.filter (fun c => 32 ≤ c.toNat || c = '\n')

/-- Python text.strip() with no arguments: drop leading and trailing
whitespace. -/
def pyStrip (l : List Char) : List Char :=
  (((l.dropWhile isPySpace).reverse.dropWhile isPySpace)).reverse

/-- EventModel.clean_text on character lists: the early return on a
falsy (empty) string, then whitespace collapsing, control character
removal, and stripping, exactly as in the source. -/
def cleanTextL (l : List Char) : List Char :=
  if l = [] then l
  else pyStrip (keepPrintable (joinSpace (pySplit l)))

/-- EventModel.clean_text on Lean strings. -/
def clean_text (s : String) : String := String.mk (cleanTextL s.data)

/-! ## MD5 (hashlib.md5), RFC 1321, over UTF-8 bytes -/

/-- UTF-8 encoding of one character, as byte values. -/
def utf8Char (c : Char) : List Nat :=
  let n := c.toNat
  if n < 0x80 then [n]
  else if n < 0x800 then [0xc0 + n / 64, 0x80 + n % 64]
  else if n < 0x10000 then [0xe0 + n / 4096, 0x80 + n / 64 % 64, 0x80 + n % 64]
  else [0xf0 + n / 262144, 0x80 + n / 4096 % 64, 0x80 + n / 64 % 64, 0x80 + n % 64]

/-- UTF-8 encoding of a string (Python text.encode()). -/
def utf8Bytes (s : String) : List Nat := (s.data.map utf8Char).flatten

/-- The 64 MD5 sine-derived constants. -/
def md5K : List Nat :=
  [0xd76aa478, 0xe8c7b756, 0x242070db, 0xc1bdceee,
   0xf57c0faf, 0x4787c62a, 0xa8304613, 0xfd469501,
   0x698098d8, 0x8b44f7af, 0xffff5bb1, 0x895cd7be,
   0x6b901122, 0xfd987193, 0xa679438e, 0x49b40821,
   0xf61e2562, 0xc040b340, 0x265e5a51, 0xe9b6c7aa,
   0xd62f105d, 0x02441453, 0xd8a1e681, 0xe7d3fbc8,
   0x21e1cde6, 0xc33707d6, 0xf4d50d87, 0x455a14ed,
   0xa9e3e905, 0xfcefa3f8, 0x676f02d9, 0x8d2a4c8a,
   0xfffa3942, 0x8771f681, 0x6d9d6122, 0xfde5380c,
   0xa4beea44, 0x4bdecfa9, 0xf6bb4b60, 0xbebfbc70,
   0x289b7ec6, 0xeaa127fa, 0xd4ef3085, 0x04881d05,
   0xd9d4d039, 0xe6db99e5, 0x1fa27cf8, 0xc4ac5665,
   0xf4292244, 0x432aff97, 0xab9423a7, 0xfc93a039,
   0x655b59c3, 0x8f0ccc92, 0xffeff47d, 0x85845dd1,
   0x6fa87e4f, 0xfe2ce6e0, 0xa3014314, 0x4e0811a1,
   0xf7537e82, 0xbd3af235, 0x2ad7d2bb, 0xeb86d391]

/-- The 64 MD5 per-round left-rotation amounts. -/
def md5S : List Nat :=
  [7, 12, 17, 22, 7, 12, 17, 22, 7, 12, 17, 22, 7, 12, 17, 22,
   5, 9, 14, 20, 5, 9, 14, 20, 5, 9, 14, 20, 5, 9, 14, 20,
   4, 11, 16, 23, 4, 11, 16, 23, 4, 11, 16, 23, 4, 11, 16, 23,
   6, 10, 15, 21, 6, 10, 15, 21, 6, 10, 15, 21, 6, 10, 15, 21]

/-- 32-bit left rotation on numbers below 2 to the 32. -/
def rotl32 (x n : Nat) : Nat :=
  (x * 2 ^ n) % 2 ^ 32 ||| x / 2 ^ (32 - n)

/-- Bitwise complement within 32 bits. -/
def not32 (x : Nat) : Nat := x ^^^ 0xffffffff

/-- The 64-bit little-endian byte encoding of the message bit length. -/
def leBytes8 (n : Nat) : List Nat :=
  [n % 256, n / 2 ^ 8 % 256, n / 2 ^ 16 % 256, n / 2 ^ 24 % 256,
   n / 2 ^ 32 % 256, n / 2 ^ 40 % 256, n / 2 ^ 48 % 256, n / 2 ^ 56 % 256]

/-- The little-endian bytes of one 32-bit word. -/
def leWord (w : Nat) : List Nat :=
  [w % 256, w / 2 ^ 8 % 256, w / 2 ^ 16 % 256, w / 2 ^ 24 % 256]

/-- MD5 padding: append the 0x80 byte, zeros to 56 mod 64, then the
64-bit little-endian bit length. -/
def md5Pad (msg : List Nat) : List Nat :=
  let z := (120 - (msg.length + 1) % 64) % 64
  msg ++ 0x80 :: List.replicate z 0 ++ leBytes8 (msg.length * 8 % 2 ^ 64)

/-- Split a byte list into 64-byte chunks (fuel-driven so that the
kernel can evaluate it). -/
def chunks64 : Nat → List Nat → List (List Nat)
  | 0, _ => []
  | _ + 1, [] => []
  | fuel + 1, l => l.take 64 :: chunks64 fuel (l.drop 64)

/-- The sixteen little-endian 32-bit words of one 64-byte chunk. -/
def chunkWords (chunk : List Nat) : List Nat :=
  (List.range 16).map fun j =>
    chunk.getD (4 * j) 0 + chunk.getD (4 * j + 1) 0 * 2 ^ 8 +
    chunk.getD (4 * j + 2) 0 * 2 ^ 16 + chunk.getD (4 * j + 3) 0 * 2 ^ 24

/-- One MD5 round step. -/
def md5Step (m : List Nat) (st : Nat × Nat × Nat × Nat) (i : Nat) :
    Nat × Nat × Nat × Nat :=
  let (a, b, c, d) := st
  let (f, g) :=
    if i < 16 then ((b &&& c) ||| (not32 b &&& d), i)
    else if i < 32 then ((d &&& b) ||| (not32 d &&& c), (5 * i + 1) % 16)
    else if i < 48 then (b ^^^ c ^^^ d, (3 * i + 5) % 16)
    else (c ^^^ (b ||| not32 d), 7 * i % 16)
  let f := (f + a + md5K.getD i 0 + m.getD g 0) % 2 ^ 32
  (d, (b + rotl32 f (md5S.getD i 0)) % 2 ^ 32, b, c)

/-- MD5 compression of one 64-byte chunk into the running state. -/
def md5Chunk (st : Nat × Nat × Nat × Nat) (chunk : List Nat) :
    Nat × Nat × Nat × Nat :=
  let m := chunkWords chunk
  let (a, b, c, d) := (List.range 64).foldl (md5Step m) st
  let (a0, b0, c0, d0) := st
  ((a0 + a) % 2 ^ 32, (b0 + b) % 2 ^ 32, (c0 + c) % 2 ^ 32, (d0 + d) % 2 ^ 32)

/-- The sixteen digest bytes of the MD5 of a byte message. -/
def md5Digest (msg : List Nat) : List Nat :=
  let padded := md5Pad msg
  let (a, b, c, d) :=
    (chunks64 (padded.length + 1) padded).foldl md5Chunk
      (0x67452301, 0xefcdab89, 0x98badcfe, 0x10325476)
  leWord a ++ leWord b ++ leWord c ++ leWord d

/-- One hexadecimal digit character (lowercase, as hexdigest uses):
code 48 up for the decimal digits, code 97 up for the letters. -/
def hexChar (n : Nat) : Char :=
  if n < 10 then Char.ofNat (48 + n)
  else if n < 16 then Char.ofNat (87 + n)
  else '*'

/-- Two hexadecimal characters of one byte. -/
def byteHex (b : Nat) : List Char := [hexChar (b / 16 % 16), hexChar (b % 16)]

/-- hashlib.md5(bytes).hexdigest() as a Lean string. -/
def md5Hex (s : String) : String :=
  String.mk (((md5Digest (utf8Bytes s)).map byteHex).flatten)

/-! ## datetime values to second precision -/

/-- A Python datetime value, modelled to second precision (the
microsecond field plays no role in any of the verified behavior). -/
structure DateTime where
  year : Nat
  month : Nat
  day : Nat
  hour : Nat
  minute : Nat
  second : Nat
deriving DecidableEq, Repr

/-- datetime.date(): the calendar day triple, dropping the time. -/
def DateTime.dateTriple (d : DateTime) : Nat × Nat × Nat :=
  (d.year, d.month, d.day)

/-- Python datetime comparison: lexicographic on the fields. -/
def dtLe (a b : DateTime) : Prop :=
  (a.year, a.month, a.day, a.hour, a.minute, a.second) ≤
    (b.year, b.month, b.day, b.hour, b.minute, b.second)

instance (a b : DateTime) : Decidable (dtLe a b) := by
  unfold dtLe; infer_instance

/-- One decimal digit character: code 48 up for the ten digits. -/
def digChar (n : Nat) : Char :=
  if n < 10 then Char.ofNat (48 + n) else '*'

/-- The numeric value of a decimal digit character. -/
def digVal (c : Char) : Nat := c.toNat - 48

/-- Two-digit zero-padded decimal rendering. -/
def pad2 (n : Nat) : List Char := [digChar (n / 10 % 10), digChar (n % 10)]

/-- Four-digit zero-padded decimal rendering. -/
def pad4 (n : Nat) : List Char :=
  [digChar (n / 1000 % 10), digChar (n / 100 % 10),
   digChar (n / 10 % 10), digChar (n % 10)]

/-- str(datetime.date()): the ISO calendar date YYYY-MM-DD. -/
def isoDate (d : DateTime) : String :=
  String.mk (pad4 d.year ++ '-' :: pad2 d.month ++ '-' :: pad2 d.day)

/-- datetime.isoformat() for a whole-second datetime:
YYYY-MM-DDTHH:MM:SS. -/
def isoDateTime (d : DateTime) : String :=
  String.mk (pad4 d.year ++ '-' :: pad2 d.month ++ '-' :: pad2 d.day ++
    'T' :: pad2 d.hour ++ ':' :: pad2 d.minute ++ ':' :: pad2 d.second)

/-- Number of days in a month of the proleptic Gregorian calendar, as
the datetime module validates it. -/
def daysInMonth (y m : Nat) : Nat :=
  if m = 2 then (if y % 4 = 0 && (y % 100 != 0 || y % 400 = 0) then 29 else 28)
  else if m = 4 || m = 6 || m = 9 || m = 11 then 30
  else 31

/-- The field ranges the datetime constructor enforces. -/
def ValidDT (d : DateTime) : Prop :=
  1 ≤ d.year ∧ d.year ≤ 9999 ∧ 1 ≤ d.month ∧ d.month ≤ 12 ∧
  1 ≤ d.day ∧ d.day ≤ daysInMonth d.year d.month ∧
  d.hour ≤ 23 ∧ d.minute ≤ 59 ∧ d.second ≤ 59

instance (d : DateTime) : Decidable (ValidDT d) := by
  unfold ValidDT; infer_instance

/-- datetime.fromisoformat on the seconds-precision shape produced by
isoformat above; malformed or out-of-range input is a ValueError,
modelled as none. -/
def fromIso (s : String) : Option DateTime :=
  match s.data with
  | [y1, y2, y3, y4, '-', m1, m2, '-', d1, d2, 'T',
     h1, h2, ':', n1, n2, ':', s1, s2] =>
    if (y1.isDigit && y2.isDigit && y3.isDigit && y4.isDigit &&
        m1.isDigit && m2.isDigit && d1.isDigit && d2.isDigit &&
        h1.isDigit && h2.isDigit && n1.isDigit && n2.isDigit &&
        s1.isDigit && s2.isDigit) then
      let dt : DateTime :=
        { year := digVal y1 * 1000 + digVal y2 * 100 + digVal y3 * 10 + digVal y4
          month := digVal m1 * 10 + digVal m2
          day := digVal d1 * 10 + digVal d2
          hour := digVal h1 * 10 + digVal h2
          minute := digVal n1 * 10 + digVal n2
          second := digVal s1 * 10 + digVal s2 }
      if ValidDT dt then some dt else none
    else none
  | _ => none

/-! ## Email extraction: the compiled regex of EventModel.extract_email

The pattern is a word boundary, a local part of one or more characters
from the class of letters, digits, dot, underscore, percent, plus and
minus, an at sign, a domain of one or more characters from the class of
letters, digits, dot and minus, a literal dot, a top-level part of two
or more characters from the class written as A-Z, vertical bar, a-z in
the source, and a word boundary.  re.search semantics: the leftmost
starting position wins, and each greedy run backtracks from its maximal
length. -/

/-- ASCII letters. -/
def isAsciiLetter (c : Char) : Bool :=
  ('A' ≤ c && c ≤ 'Z') || ('a' ≤ c && c ≤ 'z')

/-- Regex word characters (the class behind a word boundary). -/
def isWordChar (c : Char) : Bool :=
  isAsciiLetter c || c.isDigit || c = '_'

/-- The local-part character class. -/
def isLocalChar (c : Char) : Bool :=
  isAsciiLetter c || c.isDigit ||
  c = '.' || c = '_' || c = '%' || c = '+' || c = '-'

/-- The domain character class. -/
def isDomainChar (c : Char) : Bool :=
  isAsciiLetter c || c.isDigit || c = '.' || c = '-'

/-- The top-level character class as written in the source pattern:
the ranges A-Z and a-z together with the vertical bar that sits between
them inside the brackets. -/
def isTldChar (c : Char) : Bool :=
  ('A' ≤ c && c ≤ 'Z') || c = '|' || ('a' ≤ c && c ≤ 'z')

/-- Whether the character at an index is a word character (out of range
counts as not). -/
def wordAt (s : List Char) (i : Nat) : Bool :=
  match s.get? i with
  | some c => isWordChar c
  | none => false

/-- A regex word boundary before index i. -/
def boundaryAt (s : List Char) (i : Nat) : Bool :=
  (if i = 0 then false else wordAt s (i - 1)) != wordAt s i

/-- Length of the maximal run of class characters from index i. -/
def runLen (p : Char → Bool) (s : List Char) (i : Nat) : Nat :=
  ((s.drop i).takeWhile p).length

/-- Backtracking over the top-level run (with character class tld):
lengths from the maximal run down to two, accepting the first end
position with a word boundary. -/
def tldLoop (tld : Char → Bool) (s : List Char) (j : Nat) : Nat → Option Nat
  | 0 => none
  | l + 1 =>
    if 2 ≤ l + 1 && boundaryAt s (j + l + 1) then some (j + l + 1)
    else tldLoop tld s j l

/-- Backtracking over the domain run starting at index jd: lengths from
the maximal run down to one; the next character must be the literal dot,
then the top-level part must succeed. -/
def domLoop (tld : Char → Bool) (s : List Char) (jd : Nat) : Nat → Option Nat
  | 0 => none
  | l + 1 =>
    match (if s.get? (jd + l + 1) = some '.' then
             tldLoop tld s (jd + l + 2) (runLen tld s (jd + l + 2))
           else none) with
    | some e => some e
    | none => domLoop tld s jd l

/-- Backtracking over the local run starting at index i: lengths from
the maximal run down to one; the next character must be the at sign,
then domain, dot and top-level part must succeed. -/
def locLoop (tld : Char → Bool) (s : List Char) (i : Nat) : Nat → Option Nat
  | 0 => none
  | l + 1 =>
    match (if s.get? (i + l + 1) = some '@' then
             domLoop tld s (i + l + 2) (runLen isDomainChar s (i + l + 2))
           else none) with
    | some e => some e
    | none => locLoop tld s i l

/-- Try to match the email pattern at start index i, returning the end
index of the match. -/
def matchEmailAt (tld : Char → Bool) (s : List Char) (i : Nat) : Option Nat :=
  if boundaryAt s i then locLoop tld s i (runLen isLocalChar s i)
  else none

/-- re.search for the email pattern: the first starting index that
matches, together with the end of that match. -/
def searchEmail (tld : Char → Bool) (s : List Char) : Option (Nat × Nat) :=
  (List.range (s.length + 1)).findSome? fun i =>
    (matchEmailAt tld s i).map fun e => (i, e)

/-- The matched substring of the email pattern with top-level class
tld, if any. -/
def extractWith (tld : Char → Bool) (text : String) : Option String :=
  match searchEmail tld text.data with
  | some (i, e) => some (String.mk ((text.data.drop i).take (e - i)))
  | none => none

/-- EventModel.extract_email: the pattern with the top-level class as
written in the source (letters and the vertical bar). -/
def extract_email (text : String) : Option String :=
  extractWith isTldChar text

/-- Modelled from the spec: the same search with the top-level class
the spec describes, a top-level domain of two or more letters.  Used
only to compare the code against the specified pattern. -/
def spec_extract_email (text : String) : Option String :=
  extractWith isAsciiLetter text

/-! ## EventModel -/

/-- Python str.lower() restricted to the ASCII range the event names
use. -/
def lowerS (s : String) : String :=
  String.mk (s.data.map fun c =>
    if 'A' ≤ c && c ≤ 'Z' then Char.ofNat (c.toNat + 32) else c)

/-- An event record after construction.  The event_id field is a plain
string because construction always fills it. -/
structure EventModel where
  name : String
  date : DateTime
  location : String
  source_url : String
  contact_email : Option String
  description : Option String
  source : Option String
  scraped_at : DateTime
  event_id : String
deriving DecidableEq, Repr

/-- EventModel.generate_id: the first 12 hexadecimal characters of the
MD5 of name, calendar date and location joined by vertical bars. -/
def generate_id (name : String) (date : DateTime) (location : String) : String :=
  String.mk ((md5Hex (name ++ "|" ++ isoDate date ++ "|" ++ location)).data.take 12)

/-- Dataclass construction followed by post-init processing: clean the
name and the location, clean a truthy description, derive the id when
the given one is falsy (absent or empty), then extract a contact email
from a truthy description when the given contact email is falsy. -/
def mkEvent (name : String) (date : DateTime) (location : String)
    (source_url : String) (contact_email : Option String)
    (description : Option String) (source : Option String)
    (scraped_at : DateTime) (event_id : Option String) : EventModel :=
  let name := clean_text name
  let location := clean_text location
  let description := description.map fun d => if d = "" then d else clean_text d
  let event_id :=
    match event_id with
    | some s => if s = "" then generate_id name date location else s
    | none => generate_id name date location
  let contact_email :=
    match contact_email with
    | some e =>
      if e = "" then
        match description with
        | some d => if d = "" then some e else extract_email d
        | none => some e
      else some e
    | none =>
      match description with
      | some d => if d = "" then none else extract_email d
      | none => none
  { name, date, location, source_url, contact_email, description,
    source, scraped_at, event_id }

/-- EventModel.string_similarity; the float score is modelled as a
rational number. -/
def string_similarity (str1 str2 : String) : ℚ :=
  let longer := if str1.length > str2.length then str1 else str2
  let shorter := if longer = str1 then str2 else str1
  if longer = "" then 1
  else Rat.divInt
    (((shorter.data.zip longer.data).filter fun p => p.1 = p.2).length)
    longer.length

/-- EventModel.is_duplicate_of: identical ids always match; otherwise
fuzzy matching compares calendar dates and the name similarity of the
lower-cased names against the 0.8 threshold. -/
def EventModel.is_duplicate_of (self other : EventModel) (fuzzy : Bool) : Bool :=
  if self.event_id = other.event_id then true
  else if !fuzzy then false
  else if self.date.dateTriple = other.date.dateTriple then
    decide (string_similarity (lowerS self.name) (lowerS other.name) >
      Rat.divInt 4 5)
  else false

/-- The plain-record dictionary shape produced by EventModel.to_dict,
with both timestamps rendered in ISO-8601. -/
structure EventDict where
  event_id : Option String
  name : String
  date : String
  location : String
  source_url : String
  contact_email : Option String
  description : Option String
  source : Option String
  scraped_at : Option String
deriving DecidableEq, Repr

/-- EventModel.to_dict. -/
def EventModel.to_dict (e : EventModel) : EventDict :=
  { event_id := some e.event_id
    name := e.name
    date := isoDateTime e.date
    location := e.location
    source_url := e.source_url
    contact_email := e.contact_email
    description := e.description
    source := e.source
    scraped_at := some (isoDateTime e.scraped_at) }

/-- EventModel.from_dict: parse the dates (a parse failure is a raised
ValueError, modelled as none), defaulting an absent scraped_at to the
current time, then construct. -/
def from_dict (now : DateTime) (d : EventDict) : Option EventModel :=
  match fromIso d.date with
  | none => none
  | some date =>
    match (match d.scraped_at with
           | some s => fromIso s
           | none => fromIso (isoDateTime now)) with
    | none => none
    | some scraped_at =>
      some (mkEvent d.name date d.location d.source_url d.contact_email
        d.description d.source scraped_at d.event_id)

/-! ## EventCollection -/

/-- The collection: the ordered record sequence plus the id index; the
Python dict is modelled by its lookup function. -/
structure EventCollection where
  events : List EventModel
  idIndex : String → Option EventModel

/-- One dict assignment: bind the id of a record to the record,
shadowing any earlier binding. -/
def updIndex (m : String → Option EventModel) (e : EventModel) :
    String → Option EventModel :=
  fun k => if k = e.event_id then some e else m k

/-- The dict comprehension of EventCollection.rebuild_index: later
records with the same id overwrite earlier ones. -/
def buildIndex (l : List EventModel) : String → Option EventModel :=
  l.foldl updIndex (fun _ => none)

/-- EventCollection.__init__ from an optional list of events. -/
def EventCollection.init (events : List EventModel) : EventCollection :=
  { events := events, idIndex := buildIndex events }

/-- EventCollection.has_duplicate: the id lookup, then if fuzzy a scan
of all records. -/
def EventCollection.has_duplicate (c : EventCollection) (e : EventModel)
    (fuzzy : Bool) : Bool :=
  (c.idIndex e.event_id).isSome ||
    (fuzzy && c.events.any fun existing => e.is_duplicate_of existing true)

/-- EventCollection.add: reject when checking finds a duplicate, else
append and register. -/
def EventCollection.add (c : EventCollection) (e : EventModel)
    (check_duplicates : Bool) : EventCollection × Bool :=
  if check_duplicates && c.has_duplicate e true then (c, false)
  else
    ({ events := c.events ++ [e], idIndex := updIndex c.idIndex e }, true)

/-- One step of EventCollection.add_many: add, and bump the accepted
count when the add returned true. -/
def addManyStep (check_duplicates : Bool) (st : EventCollection × Nat)
    (e : EventModel) : EventCollection × Nat :=
  ((st.1.add e check_duplicates).1,
   if (st.1.add e check_duplicates).2 then st.2 + 1 else st.2)

/-- EventCollection.add_many: sequential adds, counting accepted
records. -/
def EventCollection.add_many (c : EventCollection) (es : List EventModel)
    (check_duplicates : Bool) : EventCollection × Nat :=
  es.foldl (addManyStep check_duplicates) (c, 0)

/-- EventCollection.sort_by_date: a stable sort of the sequence by the
datetime key; the index is untouched. -/
def EventCollection.sort_by_date (c : EventCollection) (reverse : Bool) :
    EventCollection :=
  { c with
    events :=
      if reverse then c.events.mergeSort fun a b => decide (dtLe b.date a.date)
      else c.events.mergeSort fun a b => decide (dtLe a.date b.date) }

/-- The loop of EventCollection.remove_duplicates: one pass with the
seen-id set (membership only, so a list suffices), the kept list and
the removed counter. -/
def removeDupsGo : List EventModel → List String → List EventModel → Nat →
    List EventModel × Nat
  | [], _, kept, removed => (kept, removed)
  | e :: rest, seen, kept, removed =>
    if e.event_id ∈ seen then removeDupsGo rest seen kept (removed + 1)
    else if kept.any fun u => e.is_duplicate_of u true then
      removeDupsGo rest seen kept (removed + 1)
    else removeDupsGo rest (e.event_id :: seen) (kept ++ [e]) removed

/-- EventCollection.remove_duplicates: run the pass, replace the
sequence, rebuild the index, return the removed count. -/
def EventCollection.remove_duplicates (c : EventCollection) :
    EventCollection × Nat :=
  let kr := removeDupsGo c.events [] [] 0
  ({ events := kr.1, idIndex := buildIndex kr.1 }, kr.2)

/-- EventCollection.to_list. -/
def EventCollection.to_list (c : EventCollection) : List EventDict :=
  c.events.map EventModel.to_dict

/-! ## Shape of the MD5 hexdigest -/

/-- The sixteen lowercase hexadecimal digit characters. -/
def hexDigits : List Char := "0123456789abcdef".data

theorem hexChar_mem_hexDigits (n : Nat) (h : n < 16) : hexChar n ∈ hexDigits := by
  interval_cases n <;> decide

theorem md5Digest_length (m : List Nat) : (md5Digest m).length = 16 := by
  unfold md5Digest
  rcases (chunks64 ((md5Pad m).length + 1) (md5Pad m)).foldl md5Chunk
    (0x67452301, 0xefcdab89, 0x98badcfe, 0x10325476) with ⟨a, b, c, d⟩
  simp [leWord]

theorem byteHex_flatten_length (l : List Nat) :
    ((l.map byteHex).flatten).length = 2 * l.length := by
  induction l with
  | nil => simp
  | cons b t ih => simp [byteHex, ih]; omega

theorem md5Hex_length (s : String) : (md5Hex s).length = 32 := by
  show (((md5Digest (utf8Bytes s)).map byteHex).flatten).length = 32
  rw [byteHex_flatten_length, md5Digest_length]

theorem md5Hex_chars (s : String) :
    ∀ c ∈ (md5Hex s).data, c ∈ hexDigits := by
  intro c hc
  have hc2 : c ∈ ((md5Digest (utf8Bytes s)).map byteHex).flatten := hc
  rw [List.mem_flatten] at hc2
  obtain ⟨l, hl, hcl⟩ := hc2
  rw [List.mem_map] at hl
  obtain ⟨b, _, rfl⟩ := hl
  simp only [byteHex, List.mem_cons, List.not_mem_nil, or_false] at hcl
  rcases hcl with h | h
  · exact h ▸ hexChar_mem_hexDigits _ (Nat.mod_lt _ (by omega))
  · exact h ▸ hexChar_mem_hexDigits _ (Nat.mod_lt _ (by omega))

/-- A compile-time cross-check of the MD5 implementation against the
RFC 1321 test vectors. -/
theorem md5Hex_rfc_vectors :
    md5Hex "" = "d41d8cd98f00b204e9800998ecf8427e" ∧
    md5Hex "abc" = "900150983cd24fb0d6963f7d28e17f72" := by
  constructor <;> decide

theorem generate_id_length (name : String) (d : DateTime) (loc : String) :
    (generate_id name d loc).length = 12 := by
  show ((md5Hex (name ++ "|" ++ isoDate d ++ "|" ++ loc)).data.take 12).length = 12
  rw [List.length_take]
  have h := md5Hex_length (name ++ "|" ++ isoDate d ++ "|" ++ loc)
  simp only [String.length] at h
  omega

theorem generate_id_chars (name : String) (d : DateTime) (loc : String) :
    ∀ c ∈ (generate_id name d loc).data, c ∈ hexDigits := by
  intro c hc
  exact md5Hex_chars _ _ (List.mem_of_mem_take hc)

/-- The constructed event id when no id is supplied. -/
theorem mkEvent_event_id (name : String) (d : DateTime) (loc url : String)
    (ce de so : Option String) (sc : DateTime) :
    (mkEvent name d loc url ce de so sc none).event_id =
      generate_id (clean_text name) d (clean_text loc) := by
  simp [mkEvent]

/-- The ISO calendar date is a function of the calendar triple. -/
theorem isoDate_eq_of_dateTriple {d1 d2 : DateTime}
    (h : d1.dateTriple = d2.dateTriple) : isoDate d1 = isoDate d2 := by
  unfold DateTime.dateTriple at h
  simp only [Prod.mk.injEq] at h
  unfold isoDate
  rw [h.1, h.2.1, h.2.2]

/-- C1: constructing two records without a supplied event id, with
identical normalized names, identical calendar dates and identical
normalized locations, yields identical event ids, which are strings of
twelve hexadecimal characters, regardless of the urls, descriptions,
emails, sources and scrape times. -/
theorem C1_event_id_deterministic
    (n1 n2 loc1 loc2 u1 u2 : String) (d1 d2 : DateTime)
    (ce1 ce2 de1 de2 so1 so2 : Option String) (sc1 sc2 : DateTime)
    (hn : clean_text n1 = clean_text n2)
    (hd : d1.dateTriple = d2.dateTriple)
    (hl : clean_text loc1 = clean_text loc2) :
    (mkEvent n1 d1 loc1 u1 ce1 de1 so1 sc1 none).event_id =
      (mkEvent n2 d2 loc2 u2 ce2 de2 so2 sc2 none).event_id ∧
    (mkEvent n1 d1 loc1 u1 ce1 de1 so1 sc1 none).event_id.length = 12 ∧
    ∀ c ∈ (mkEvent n1 d1 loc1 u1 ce1 de1 so1 sc1 none).event_id.data,
      c ∈ hexDigits := by
  rw [mkEvent_event_id, mkEvent_event_id]
  refine ⟨?_, generate_id_length _ _ _, generate_id_chars _ _ _⟩
  unfold generate_id
  rw [hn, hl, isoDate_eq_of_dateTriple hd]

/-- C1 witness: the determinism theorem applied at two concrete
records that differ in url, description and scrape time. -/
theorem C1_witness :
    (mkEvent "Same Event" ⟨2025, 7, 20, 0, 0, 0⟩ "Same Location"
      "https://example1.com" none none none ⟨2025, 7, 20, 0, 0, 0⟩
      none).event_id =
      (mkEvent "Same Event" ⟨2025, 7, 20, 11, 30, 0⟩ "Same Location"
        "https://example2.com" none (some "a different description") none
        ⟨2025, 7, 21, 0, 0, 0⟩ none).event_id ∧
    (mkEvent "Same Event" ⟨2025, 7, 20, 0, 0, 0⟩ "Same Location"
      "https://example1.com" none none none ⟨2025, 7, 20, 0, 0, 0⟩
      none).event_id.length = 12 ∧
    ∀ c ∈ (mkEvent "Same Event" ⟨2025, 7, 20, 0, 0, 0⟩ "Same Location"
      "https://example1.com" none none none ⟨2025, 7, 20, 0, 0, 0⟩
      none).event_id.data, c ∈ hexDigits :=
  C1_event_id_deterministic _ _ _ _ _ _ _ _ _ _ _ _ _ _ _ _
    rfl rfl rfl

/-- C2: at the pair of records the claim and the test fixture of the
repository describe (names NYC Food Festival and NYC Food Fest, same
calendar date), the positional similarity of the lower-cased names is
13/17, which does not exceed 4/5, and is_duplicate_of with fuzzy
matching returns false: the code contradicts the claim and its own
test_duplicate_detection test. -/
theorem C2_fuzzy_pair_not_duplicate :
    (mkEvent "NYC Food Festival" ⟨2024, 7, 20, 0, 0, 0⟩ "Brooklyn"
      "https://example1.com" none none none ⟨2024, 7, 1, 0, 0, 0⟩
      none).is_duplicate_of
      (mkEvent "NYC Food Fest" ⟨2024, 7, 20, 0, 0, 0⟩ "Brooklyn"
        "https://example2.com" none none none ⟨2024, 7, 1, 0, 0, 0⟩ none)
      true = false ∧
    string_similarity (lowerS "NYC Food Festival") (lowerS "NYC Food Fest") =
      Rat.divInt 13 17 ∧
    ¬ Rat.divInt 13 17 > Rat.divInt 4 5 := by
  exact ⟨by decide, by decide, by decide⟩

/-- C6 counterexample: construction with a name that is empty after
normalization does not fail; the record is constructed with an empty
name and a derived twelve-character id, where the claim requires an
error to be raised.  The post-init code of the source contains no
validation and no raise. -/
theorem C6_counterexample :
    (mkEvent "" ⟨2025, 7, 20, 18, 0, 0⟩ "NYC" "https://example.com"
      none none none ⟨2025, 7, 20, 18, 0, 0⟩ none).name = "" ∧
    (mkEvent "" ⟨2025, 7, 20, 18, 0, 0⟩ "NYC" "https://example.com"
      none none none ⟨2025, 7, 20, 18, 0, 0⟩ none).event_id.length = 12 := by
  exact ⟨by decide, by decide⟩

/-- C6 amended: construction never raises; it totally normalizes the
name and the location and always derives a twelve-character id when
none is supplied, accepting names and locations that are empty after
normalization. -/
theorem C6_construction_total (name : String) (d : DateTime)
    (loc url : String) (ce de so : Option String) (sc : DateTime) :
    (mkEvent name d loc url ce de so sc none).name = clean_text name ∧
    (mkEvent name d loc url ce de so sc none).location = clean_text loc ∧
    (mkEvent name d loc url ce de so sc none).event_id.length = 12 := by
  refine ⟨by simp [mkEvent], by simp [mkEvent], ?_⟩
  rw [mkEvent_event_id]
  exact generate_id_length _ _ _

/-- C9: the first conjunct is the scenario of the claim, which the code
satisfies; the second and third conjuncts exhibit the divergence: on a
description containing x@y.ab|cd the code adopts x@y.ab|cd (the
top-level class of the source pattern contains the vertical bar),
while the first substring matching the pattern the claim describes (a
top-level domain of two or more letters) is x@y.ab. -/
theorem C9_email_extraction_divergence :
    (mkEvent "Test Event" ⟨2025, 7, 20, 18, 0, 0⟩ "NYC"
      "https://example.com" none
      (some "Contact us at info@example.com for details") none
      ⟨2025, 7, 20, 18, 0, 0⟩ none).contact_email = some "info@example.com" ∧
    (mkEvent "Test Event" ⟨2025, 7, 20, 18, 0, 0⟩ "NYC"
      "https://example.com" none (some "mail x@y.ab|cd here") none
      ⟨2025, 7, 20, 18, 0, 0⟩ none).contact_email = some "x@y.ab|cd" ∧
    spec_extract_email (clean_text "mail x@y.ab|cd here") = some "x@y.ab" := by
  exact ⟨by decide, by decide, by decide⟩

/-! ## Normalization: structure of split, join and strip -/

theorem splitAux_words (Q : Char → Prop) : ∀ (l acc : List Char),
    (∀ c ∈ l, isPySpace c = true ∨ Q c) →
    (∀ c ∈ acc, isPySpace c = false ∧ Q c) →
    ∀ w ∈ splitAux l acc, w ≠ [] ∧ ∀ c ∈ w, isPySpace c = false ∧ Q c := by
  intro l
  induction l with
  | nil =>
    intro acc _ hacc w hw
    by_cases h : acc = []
    · simp [splitAux, h] at hw
    · simp [splitAux, h] at hw
      subst hw
      refine ⟨by simpa using h, ?_⟩
      intro c hc
      exact hacc c (List.mem_reverse.mp hc)
  | cons c rest ih =>
    intro acc hl hacc w hw
    by_cases hsp : isPySpace c = true
    · by_cases h : acc = []
      · simp only [splitAux, hsp, if_true, h, if_pos rfl] at hw
        exact ih [] (fun x hx => hl x (List.mem_cons_of_mem _ hx))
          (by simp) w hw
      · simp only [splitAux, hsp, if_true, if_neg h, List.mem_cons] at hw
        rcases hw with rfl | hw
        · refine ⟨by simpa using h, ?_⟩
          intro x hx
          exact hacc x (List.mem_reverse.mp hx)
        · exact ih [] (fun x hx => hl x (List.mem_cons_of_mem _ hx))
            (by simp) w hw
    · have hQ : Q c := by
        rcases hl c (List.mem_cons_self _ _) with h | h
        · exact absurd h hsp
        · exact h
      simp only [splitAux, hsp, if_false] at hw
      refine ih (c :: acc) (fun x hx => hl x (List.mem_cons_of_mem _ hx))
        ?_ w hw
      intro x hx
      rcases List.mem_cons.mp hx with rfl | hx
      · exact ⟨by simpa using hsp, hQ⟩
      · exact hacc x hx

theorem splitAux_append_word : ∀ (w l acc : List Char),
    (∀ c ∈ w, isPySpace c = false) →
    splitAux (w ++ l) acc = splitAux l (w.reverse ++ acc) := by
  intro w
  induction w with
  | nil => intro l acc _; simp
  | cons c w' ih =>
    intro l acc hw
    have hc : isPySpace c = false := hw c (List.mem_cons_self _ _)
    have h2 := ih l (c :: acc) (fun x hx => hw x (List.mem_cons_of_mem _ hx))
    simp only [List.cons_append]
    rw [splitAux, hc]
    simp [h2]

theorem pySplit_joinSpace : ∀ ws : List (List Char),
    (∀ w ∈ ws, w ≠ [] ∧ ∀ c ∈ w, isPySpace c = false) →
    pySplit (joinSpace ws) = ws := by
  intro ws
  induction ws with
  | nil => intro _; rfl
  | cons w rest ih =>
    intro h
    obtain ⟨hwne, hwch⟩ := h w (List.mem_cons_self _ _)
    match rest with
    | [] =>
      show splitAux (joinSpace [w]) [] = [w]
      have : joinSpace [w] = w ++ [] := by simp [joinSpace]
      rw [this, splitAux_append_word w [] [] hwch]
      have hrne : w.reverse ≠ [] := by simpa using hwne
      simp [splitAux, hrne]
    | v :: rest' =>
      show splitAux (joinSpace (w :: v :: rest')) [] = w :: v :: rest'
      have hj : joinSpace (w :: v :: rest') =
          w ++ ' ' :: joinSpace (v :: rest') := rfl
      rw [hj, splitAux_append_word w _ [] hwch]
      have hsp : isPySpace ' ' = true := by decide
      have hrne : w.reverse ++ [] ≠ [] := by simpa using hwne
      simp only [splitAux, hsp, if_true, if_neg hrne]
      rw [List.append_nil, List.reverse_reverse]
      exact congrArg (w :: ·)
        (ih fun x hx => h x (List.mem_cons_of_mem _ hx))

theorem mem_joinSpace : ∀ (ws : List (List Char)) (c : Char),
    c ∈ joinSpace ws → c = ' ' ∨ ∃ w ∈ ws, c ∈ w := by
  intro ws
  induction ws with
  | nil => intro c hc; cases hc
  | cons w rest ih =>
    intro c hc
    match rest with
    | [] =>
      right
      exact ⟨w, List.mem_cons_self _ _, hc⟩
    | v :: rest' =>
      have hj : joinSpace (w :: v :: rest') =
          w ++ ' ' :: joinSpace (v :: rest') := rfl
      rw [hj, List.mem_append] at hc
      rcases hc with hc | hc
      · exact Or.inr ⟨w, List.mem_cons_self _ _, hc⟩
      · rcases List.mem_cons.mp hc with rfl | hc
        · exact Or.inl rfl
        · rcases ih c hc with h | ⟨u, hu, hcu⟩
          · exact Or.inl h
          · exact Or.inr ⟨u, List.mem_cons_of_mem _ hu, hcu⟩

theorem keepPrintable_eq_self (l : List Char) (h : ∀ c ∈ l, 32 ≤ c.toNat) :
    keepPrintable l = l := by
  unfold keepPrintable
  rw [List.filter_eq_self]
  intro c hc
  simp [h c hc]

theorem joinSpace_head : ∀ ws : List (List Char),
    (∀ w ∈ ws, w ≠ [] ∧ ∀ c ∈ w, isPySpace c = false) → ws ≠ [] →
    ∃ c t, joinSpace ws = c :: t ∧ isPySpace c = false := by
  intro ws h hne
  match ws with
  | [] => exact absurd rfl hne
  | w :: rest =>
    obtain ⟨hwne, hwch⟩ := h w (List.mem_cons_self _ _)
    match w, hwne with
    | c :: w', _ =>
      have hc : isPySpace c = false := hwch c (List.mem_cons_self _ _)
      match rest with
      | [] => exact ⟨c, w', rfl, hc⟩
      | v :: rest' => exact ⟨c, w' ++ ' ' :: joinSpace (v :: rest'), rfl, hc⟩

theorem joinSpace_reverse_head : ∀ ws : List (List Char),
    (∀ w ∈ ws, w ≠ [] ∧ ∀ c ∈ w, isPySpace c = false) → ws ≠ [] →
    ∃ c t, (joinSpace ws).reverse = c :: t ∧ isPySpace c = false := by
  intro ws
  induction ws with
  | nil => intro _ hne; exact absurd rfl hne
  | cons w rest ih =>
    intro h _
    obtain ⟨hwne, hwch⟩ := h w (List.mem_cons_self _ _)
    match rest with
    | [] =>
      match hr : w.reverse with
      | [] => exact absurd (by simpa using hr) hwne
      | c :: t =>
        have hc : c ∈ w := List.mem_reverse.mp (hr ▸ List.mem_cons_self _ _)
        exact ⟨c, t, by simp [joinSpace, hr], hwch c hc⟩
    | v :: rest' =>
      obtain ⟨c, t, hct, hc⟩ :=
        ih (fun x hx => h x (List.mem_cons_of_mem _ hx)) (by simp)
      refine ⟨c, t ++ ' ' :: w.reverse, ?_, hc⟩
      have hj : joinSpace (w :: v :: rest') =
          w ++ ' ' :: joinSpace (v :: rest') := rfl
      rw [hj]
      simp [hct]

theorem pyStrip_eq_self (l : List Char)
    (h1 : l.dropWhile isPySpace = l)
    (h2 : l.reverse.dropWhile isPySpace = l.reverse) :
    pyStrip l = l := by
  unfold pyStrip
  rw [h1, h2, List.reverse_reverse]

theorem dropWhile_eq_self_of_head {l : List Char} {c : Char} {t : List Char}
    (hl : l = c :: t) (hc : isPySpace c = false) :
    l.dropWhile isPySpace = l := by
  subst hl
  simp [List.dropWhile_cons, hc]

/-- The key composite fact: on a list of good words, join then filter
then strip is just the join. -/
theorem clean_of_joinSpace (ws : List (List Char))
    (h : ∀ w ∈ ws, w ≠ [] ∧ ∀ c ∈ w, isPySpace c = false ∧ 32 ≤ c.toNat)
    (hne : ws ≠ []) :
    keepPrintable (joinSpace ws) = joinSpace ws ∧
    pyStrip (joinSpace ws) = joinSpace ws := by
  have hgood : ∀ w ∈ ws, w ≠ [] ∧ ∀ c ∈ w, isPySpace c = false :=
    fun w hw => ⟨(h w hw).1, fun c hc => ((h w hw).2 c hc).1⟩
  constructor
  · refine keepPrintable_eq_self _ ?_
    intro c hc
    rcases mem_joinSpace ws c hc with rfl | ⟨w, hw, hcw⟩
    · decide
    · exact ((h w hw).2 c hcw).2
  · obtain ⟨c, t, hct, hc⟩ := joinSpace_head ws hgood hne
    obtain ⟨c2, t2, hct2, hc2⟩ := joinSpace_reverse_head ws hgood hne
    exact pyStrip_eq_self _ (dropWhile_eq_self_of_head hct hc)
      (dropWhile_eq_self_of_head hct2 hc2)

/-- C7 amended: on strings all of whose characters are printable
(ordinal at least 32) or whitespace, clean_text is idempotent.  On
other strings it need not be: removing an interior control character
can leave a double space (see the counterexample). -/
theorem cleanTextL_nil : cleanTextL [] = [] := rfl

theorem cleanTextL_eq {l : List Char} (hnil : l ≠ []) :
    cleanTextL l = pyStrip (keepPrintable (joinSpace (pySplit l))) := by
  rw [cleanTextL, if_neg hnil]

theorem C7_clean_text_idempotent (s : String)
    (h : ∀ c ∈ s.data, 32 ≤ c.toNat ∨ isPySpace c = true) :
    clean_text (clean_text s) = clean_text s := by
  show String.mk (cleanTextL (cleanTextL s.data)) = String.mk (cleanTextL s.data)
  refine congrArg String.mk ?_
  set l := s.data with hl
  by_cases hnil : l = []
  · rw [hnil, cleanTextL_nil, cleanTextL_nil]
  · have hws2 : ∀ w ∈ pySplit l, w ≠ [] ∧
        ∀ c ∈ w, isPySpace c = false ∧ 32 ≤ c.toNat :=
      splitAux_words (fun c => 32 ≤ c.toNat) l []
        (fun c hc => (h c hc).symm.imp id id) (by simp)
    have hgood : ∀ w ∈ pySplit l, w ≠ [] ∧ ∀ c ∈ w, isPySpace c = false :=
      fun w hw => ⟨(hws2 w hw).1, fun c hc => ((hws2 w hw).2 c hc).1⟩
    rw [cleanTextL_eq hnil]
    by_cases hwsnil : pySplit l = []
    · rw [hwsnil]
      rfl
    · obtain ⟨hkp, hst⟩ := clean_of_joinSpace _ hws2 hwsnil
      rw [hkp, hst]
      have hjne : joinSpace (pySplit l) ≠ [] := by
        obtain ⟨c, t, hct, _⟩ := joinSpace_head _ hgood hwsnil
        rw [hct]
        simp
      rw [cleanTextL_eq hjne, pySplit_joinSpace _ hgood, hkp, hst]

/-- C7 counterexample: on the string with an interior control
character between two spaced words, clean_text is not idempotent: the
first pass leaves a double space, the second collapses it. -/
theorem C7_counterexample :
    clean_text (clean_text "a \x01 b") ≠ clean_text "a \x01 b" := by
  decide

/-- C7 witness: the idempotence theorem applied to the example string
of the claim, together with the value the claim gives for it. -/
theorem C7_witness :
    (∀ c ∈ ("  Test   Event  \n\n" : String).data,
      32 ≤ c.toNat ∨ isPySpace c = true) ∧
    clean_text (clean_text "  Test   Event  \n\n") =
      clean_text "  Test   Event  \n\n" ∧
    clean_text "  Test   Event  \n\n" = "Test Event" :=
  ⟨by decide, C7_clean_text_idempotent _ (by decide), by decide⟩

/-! ## The deduplication pass -/

/-- A record declared a duplicate of another cannot have a distinct id
declared equal: the first branch of is_duplicate_of. -/
theorem ne_id_of_not_dup {a b : EventModel}
    (h : a.is_duplicate_of b true = false) : a.event_id ≠ b.event_id := by
  intro heq
  simp [EventModel.is_duplicate_of, heq] at h

/-- Every step of the pass either keeps a record or counts it removed,
so the kept length plus the removed count is invariant. -/
theorem removeDupsGo_count : ∀ (pending : List EventModel)
    (seen : List String) (kept : List EventModel) (removed : Nat),
    (removeDupsGo pending seen kept removed).1.length +
      (removeDupsGo pending seen kept removed).2 =
    kept.length + removed + pending.length := by
  intro pending
  induction pending with
  | nil => intro seen kept removed; simp [removeDupsGo]
  | cons e rest ih =>
    intro seen kept removed
    rw [removeDupsGo]
    by_cases h1 : e.event_id ∈ seen
    · rw [if_pos h1, ih]
      simp
      omega
    · rw [if_neg h1]
      by_cases h2 : (kept.any fun u => e.is_duplicate_of u true) = true
      · rw [if_pos h2, ih]
        simp
        omega
      · rw [if_neg h2, ih]
        simp
        omega

/-- A pass over records that are pairwise non-duplicates, have distinct
ids, and conflict with nothing already seen or kept, keeps everything
and removes nothing. -/
theorem removeDupsGo_all_kept : ∀ (pending : List EventModel)
    (seen : List String) (kept : List EventModel) (removed : Nat),
    (∀ e ∈ pending, e.event_id ∉ seen) →
    (∀ e ∈ pending, ∀ u ∈ kept, e.is_duplicate_of u true = false) →
    (pending.map (fun e => e.event_id)).Nodup →
    pending.Pairwise (fun a b => b.is_duplicate_of a true = false) →
    removeDupsGo pending seen kept removed = (kept ++ pending, removed) := by
  intro pending
  induction pending with
  | nil => intro seen kept removed _ _ _ _; simp [removeDupsGo]
  | cons e rest ih =>
    intro seen kept removed hseen hkept hnd hpw
    rw [removeDupsGo]
    rw [if_neg (hseen e (List.mem_cons_self _ _))]
    have hany : (kept.any fun u => e.is_duplicate_of u true) = false := by
      rw [List.any_eq_false]
      intro u hu
      simp [hkept e (List.mem_cons_self _ _) u hu]
    rw [hany]
    simp only [Bool.false_eq_true, if_false]
    rw [List.map_cons, List.nodup_cons] at hnd
    rw [List.pairwise_cons] at hpw
    rw [ih (e.event_id :: seen) (kept ++ [e]) removed ?_ ?_ hnd.2 hpw.2]
    · simp
    · intro x hx
      rw [List.mem_cons]
      push_neg
      refine ⟨?_, hseen x (List.mem_cons_of_mem _ hx)⟩
      intro hxe
      exact hnd.1 (hxe ▸ List.mem_map_of_mem (fun e => e.event_id) hx)
    · intro x hx u hu
      rcases List.mem_append.mp hu with hu | hu
      · exact hkept x (List.mem_cons_of_mem _ hx) u hu
      · rcases List.mem_singleton.mp hu with rfl
        exact hpw.1 x hx

/-- The kept list of any pass has pairwise distinct ids and pairwise
failing duplicate checks, given that the incoming kept list does and
its ids all sit in the seen set. -/
theorem removeDupsGo_good : ∀ (pending : List EventModel)
    (seen : List String) (kept : List EventModel) (removed : Nat),
    (∀ u ∈ kept, u.event_id ∈ seen) →
    ((kept.map (fun e => e.event_id)).Nodup) →
    kept.Pairwise (fun a b => b.is_duplicate_of a true = false) →
    (((removeDupsGo pending seen kept removed).1.map
        (fun e => e.event_id)).Nodup ∧
      (removeDupsGo pending seen kept removed).1.Pairwise
        (fun a b => b.is_duplicate_of a true = false)) := by
  intro pending
  induction pending with
  | nil =>
    intro seen kept removed _ hnd hpw
    exact ⟨hnd, hpw⟩
  | cons e rest ih =>
    intro seen kept removed hks hnd hpw
    rw [removeDupsGo]
    by_cases h1 : e.event_id ∈ seen
    · rw [if_pos h1]
      exact ih seen kept (removed + 1) hks hnd hpw
    · rw [if_neg h1]
      by_cases h2 : (kept.any fun u => e.is_duplicate_of u true) = true
      · rw [h2]
        simp only [if_true]
        exact ih seen kept (removed + 1) hks hnd hpw
      · rw [Bool.not_eq_true] at h2
        rw [h2]
        simp only [Bool.false_eq_true, if_false]
        have hall : ∀ u ∈ kept, e.is_duplicate_of u true = false :=
          fun u hu => by simpa using List.any_eq_false.mp h2 u hu
        refine ih (e.event_id :: seen) (kept ++ [e]) removed ?_ ?_ ?_
        · intro u hu
          rcases List.mem_append.mp hu with hu | hu
          · exact List.mem_cons_of_mem _ (hks u hu)
          · rcases List.mem_singleton.mp hu with rfl
            exact List.mem_cons_self _ _
        · rw [List.map_append, List.nodup_append]
          refine ⟨hnd, by simp, ?_⟩
          intro x hx hx2
          simp only [List.map_cons, List.map_nil, List.mem_singleton] at hx2
          subst hx2
          obtain ⟨u, hu, hue⟩ := List.mem_map.mp hx
          exact h1 (hue ▸ hks u hu)
        · rw [List.pairwise_append]
          refine ⟨hpw, by simp, ?_⟩
          intro a ha b hb
          rcases List.mem_singleton.mp hb with rfl
          exact hall a ha

/-- C3: remove_duplicates returns exactly the difference between the
size before and the size after (every input record is either kept or
counted removed), and on any three records of which the first two share
an id and the third is a duplicate of neither, it returns 1 and keeps
the first and third records. -/
theorem C3_remove_duplicates :
    (∀ c : EventCollection,
      (c.remove_duplicates).1.events.length + (c.remove_duplicates).2 =
        c.events.length) ∧
    ∀ r1 r2 r3 : EventModel,
      r1.event_id = r2.event_id →
      r3.is_duplicate_of r1 true = false →
      (EventCollection.init [r1, r2, r3]).remove_duplicates.2 = 1 ∧
      (EventCollection.init [r1, r2, r3]).remove_duplicates.1.events =
        [r1, r3] := by
  constructor
  · intro c
    have h := removeDupsGo_count c.events [] [] 0
    simpa [EventCollection.remove_duplicates] using h
  · intro r1 r2 r3 h12 h31
    have hne : r3.event_id ≠ r1.event_id := ne_id_of_not_dup h31
    have step : removeDupsGo [r1, r2, r3] [] [] 0 = ([r1, r3], 1) := by
      rw [removeDupsGo, if_neg (List.not_mem_nil _)]
      simp only [List.any_nil, Bool.false_eq_true, if_false, List.nil_append]
      rw [removeDupsGo,
        if_pos (List.mem_singleton.mpr h12.symm)]
      rw [removeDupsGo, if_neg (by simp [hne])]
      simp only [List.any_cons, List.any_nil, h31, Bool.or_false,
        Bool.false_eq_true, if_false]
      rw [removeDupsGo]
      rfl
    constructor
    · simp [EventCollection.remove_duplicates, EventCollection.init, step]
    · simp [EventCollection.remove_duplicates, EventCollection.init, step]

/-- C3 witness: the theorem applied to three concrete records, the
first two sharing a derived id (same name, calendar date and location,
different urls), the third distinct. -/
theorem C3_witness :
    (EventCollection.init
      [mkEvent "Duplicate Event" ⟨2025, 7, 20, 10, 0, 0⟩ "NYC"
        "https://example.com" none none none ⟨2025, 7, 1, 0, 0, 0⟩ none,
       mkEvent "Duplicate Event" ⟨2025, 7, 20, 17, 30, 0⟩ "NYC"
        "https://other.com" none none none ⟨2025, 7, 2, 0, 0, 0⟩ none,
       mkEvent "Other Show" ⟨2025, 8, 1, 0, 0, 0⟩ "Queens"
        "https://example.com/2" none none none ⟨2025, 7, 1, 0, 0, 0⟩
        none]).remove_duplicates.2 = 1 ∧
    (EventCollection.init
      [mkEvent "Duplicate Event" ⟨2025, 7, 20, 10, 0, 0⟩ "NYC"
        "https://example.com" none none none ⟨2025, 7, 1, 0, 0, 0⟩ none,
       mkEvent "Duplicate Event" ⟨2025, 7, 20, 17, 30, 0⟩ "NYC"
        "https://other.com" none none none ⟨2025, 7, 2, 0, 0, 0⟩ none,
       mkEvent "Other Show" ⟨2025, 8, 1, 0, 0, 0⟩ "Queens"
        "https://example.com/2" none none none ⟨2025, 7, 1, 0, 0, 0⟩
        none]).remove_duplicates.1.events =
      [mkEvent "Duplicate Event" ⟨2025, 7, 20, 10, 0, 0⟩ "NYC"
        "https://example.com" none none none ⟨2025, 7, 1, 0, 0, 0⟩ none,
       mkEvent "Other Show" ⟨2025, 8, 1, 0, 0, 0⟩ "Queens"
        "https://example.com/2" none none none ⟨2025, 7, 1, 0, 0, 0⟩
        none] :=
  C3_remove_duplicates.2 _ _ _ (by decide) (by decide)

/-- C10: remove_duplicates is idempotent: the kept list of one pass has
pairwise distinct ids and pairwise failing fuzzy checks, so a second
pass keeps everything, removes nothing, and rebuilds the same index. -/
theorem C10_remove_duplicates_idempotent (c : EventCollection) :
    (c.remove_duplicates).1.remove_duplicates = ((c.remove_duplicates).1, 0) := by
  have hgood := removeDupsGo_good c.events [] [] 0
    (by simp) (by simp) (by simp)
  have hkeep := removeDupsGo_all_kept (removeDupsGo c.events [] [] 0).1
    [] [] 0 (by simp) (by simp) hgood.1 hgood.2
  show ((EventCollection.remove_duplicates
    { events := (removeDupsGo c.events [] [] 0).1,
      idIndex := buildIndex (removeDupsGo c.events [] [] 0).1 })) = _
  rw [EventCollection.remove_duplicates]
  simp only [hkeep, List.nil_append]
  rfl

/-! ## The index and sequence invariant -/

/-- The invariant of the claim: the map and the sequence are in sync
and no two records of the sequence share an event id. -/
def Inv (c : EventCollection) : Prop :=
  (∀ e ∈ c.events, c.idIndex e.event_id = some e) ∧
  (∀ (k : String) (e : EventModel),
    c.idIndex k = some e → e ∈ c.events ∧ e.event_id = k) ∧
  (c.events.map (fun e => e.event_id)).Nodup

theorem buildIndex_sound : ∀ (l : List EventModel)
    (m : String → Option EventModel) (k : String) (e : EventModel),
    l.foldl updIndex m k = some e →
    (e ∈ l ∧ e.event_id = k) ∨ m k = some e := by
  intro l
  induction l with
  | nil => intro m k e h; exact Or.inr h
  | cons a t ih =>
    intro m k e h
    rcases ih (updIndex m a) k e h with ⟨he, hk⟩ | h2
    · exact Or.inl ⟨List.mem_cons_of_mem _ he, hk⟩
    · unfold updIndex at h2
      by_cases hk : k = a.event_id
      · rw [if_pos hk] at h2
        rcases Option.some.injEq .. ▸ h2 with rfl
        exact Or.inl ⟨List.mem_cons_self _ _, hk.symm⟩
      · rw [if_neg hk] at h2
        exact Or.inr h2

theorem buildIndex_skip : ∀ (l : List EventModel)
    (m : String → Option EventModel) (k : String),
    k ∉ l.map (fun e => e.event_id) → l.foldl updIndex m k = m k := by
  intro l
  induction l with
  | nil => intro m k _; rfl
  | cons a t ih =>
    intro m k hk
    simp only [List.map_cons, List.mem_cons] at hk
    push_neg at hk
    show t.foldl updIndex (updIndex m a) k = m k
    rw [ih (updIndex m a) k hk.2]
    unfold updIndex
    rw [if_neg hk.1]

theorem buildIndex_complete : ∀ (l : List EventModel)
    (m : String → Option EventModel) (e : EventModel),
    e ∈ l → (l.map (fun e => e.event_id)).Nodup →
    l.foldl updIndex m e.event_id = some e := by
  intro l
  induction l with
  | nil => intro m e he; cases he
  | cons a t ih =>
    intro m e he hnd
    rw [List.map_cons, List.nodup_cons] at hnd
    rcases List.mem_cons.mp he with rfl | he
    · show t.foldl updIndex (updIndex m e) e.event_id = some e
      rw [buildIndex_skip t _ _ hnd.1]
      unfold updIndex
      rw [if_pos rfl]
    · exact ih (updIndex m a) e he hnd.2

/-- A rebuilt index together with a duplicate-free sequence satisfies
the invariant. -/
theorem Inv_buildIndex (l : List EventModel)
    (h : (l.map (fun e => e.event_id)).Nodup) :
    Inv { events := l, idIndex := buildIndex l } := by
  refine ⟨?_, ?_, h⟩
  · intro e he
    exact buildIndex_complete l _ e he h
  · intro k e hk
    rcases buildIndex_sound l _ k e hk with h2 | h2
    · exact h2
    · cases h2

/-- Adding with the duplicate check preserves the invariant. -/
theorem add_inv (c : EventCollection) (e : EventModel) (h : Inv c) :
    Inv (c.add e true).1 := by
  by_cases hd : c.has_duplicate e true = true
  · simp only [EventCollection.add, Bool.true_and, hd, if_true]
    exact h
  · rw [Bool.not_eq_true] at hd
    simp only [EventCollection.add, Bool.true_and, hd, Bool.false_eq_true,
      if_false]
    have hnone : c.idIndex e.event_id = none := by
      unfold EventCollection.has_duplicate at hd
      rcases Bool.or_eq_false_iff.mp hd with ⟨h1, _⟩
      exact Option.not_isSome_iff_eq_none.mp (by simp [h1])
    obtain ⟨hA, hB, hC⟩ := h
    refine ⟨?_, ?_, ?_⟩
    · intro x hx
      rcases List.mem_append.mp hx with hx | hx
      · have hxne : x.event_id ≠ e.event_id := by
          intro heq
          have h2 := hA x hx
          rw [heq, hnone] at h2
          cases h2
        show updIndex c.idIndex e x.event_id = some x
        unfold updIndex
        rw [if_neg hxne]
        exact hA x hx
      · rcases List.mem_singleton.mp hx with rfl
        show updIndex c.idIndex x x.event_id = some x
        unfold updIndex
        rw [if_pos rfl]
    · intro k x hk
      simp only [updIndex] at hk
      by_cases hke : k = e.event_id
      · rw [if_pos hke] at hk
        rcases Option.some.injEq .. ▸ hk with rfl
        exact ⟨List.mem_append_right _ (List.mem_singleton.mpr rfl), hke.symm⟩
      · rw [if_neg hke] at hk
        obtain ⟨hmem, hid⟩ := hB k x hk
        exact ⟨List.mem_append_left _ hmem, hid⟩
    · rw [List.map_append, List.nodup_append]
      refine ⟨hC, by simp, ?_⟩
      intro x hx hx2
      simp only [List.map_cons, List.map_nil, List.mem_singleton] at hx2
      subst hx2
      obtain ⟨u, hu, hue⟩ := List.mem_map.mp hx
      have h2 := hA u hu
      rw [hue, hnone] at h2
      cases h2

/-- Sequential adding with the duplicate check preserves the
invariant. -/
theorem add_many_inv (es : List EventModel) :
    ∀ p : EventCollection × Nat, Inv p.1 →
    Inv (es.foldl (addManyStep true) p).1 := by
  induction es with
  | nil => intro p h; exact h
  | cons e t ih =>
    intro p h
    exact ih (addManyStep true p e) (add_inv p.1 e h)

/-- Sorting permutes the sequence and keeps the index, preserving the
invariant. -/
theorem sort_by_date_inv (c : EventCollection) (rev : Bool) (h : Inv c) :
    Inv (c.sort_by_date rev) := by
  obtain ⟨hA, hB, hC⟩ := h
  unfold EventCollection.sort_by_date
  by_cases hr : rev = true
  · rw [hr]
    have hperm : (c.events.mergeSort
        fun a b => decide (dtLe b.date a.date)).Perm c.events :=
      List.mergeSort_perm c.events _
    refine ⟨?_, ?_, ?_⟩
    · intro e he
      exact hA e (hperm.mem_iff.mp he)
    · intro k e hk
      obtain ⟨hm, hi⟩ := hB k e hk
      exact ⟨hperm.mem_iff.mpr hm, hi⟩
    · exact ((hperm.map (fun e => e.event_id)).nodup_iff).mpr hC
  · rw [Bool.not_eq_true] at hr
    rw [hr]
    simp only [Bool.false_eq_true, if_false]
    have hperm : (c.events.mergeSort
        fun a b => decide (dtLe a.date b.date)).Perm c.events :=
      List.mergeSort_perm c.events _
    refine ⟨?_, ?_, ?_⟩
    · intro e he
      exact hA e (hperm.mem_iff.mp he)
    · intro k e hk
      obtain ⟨hm, hi⟩ := hB k e hk
      exact ⟨hperm.mem_iff.mpr hm, hi⟩
    · exact ((hperm.map (fun e => e.event_id)).nodup_iff).mpr hC

/-- remove_duplicates establishes the invariant outright. -/
theorem remove_duplicates_inv (c : EventCollection) :
    Inv (c.remove_duplicates).1 := by
  have hgood := removeDupsGo_good c.events [] [] 0
    (by simp) (by simp) (by simp)
  exact Inv_buildIndex _ hgood.1

/-- The mutating operations of the amended claim. -/
inductive COp where
  | addOne : EventModel → COp
  | addMany : List EventModel → COp
  | removeDups : COp
  | sortByDate : Bool → COp

/-- Application of one mutating operation, with duplicate checking on
for the inserting operations. -/
def applyOp (c : EventCollection) : COp → EventCollection
  | .addOne e => (c.add e true).1
  | .addMany es => (c.add_many es true).1
  | .removeDups => (c.remove_duplicates).1
  | .sortByDate rev => c.sort_by_date rev

theorem applyOp_inv (c : EventCollection) (op : COp) (h : Inv c) :
    Inv (applyOp c op) := by
  cases op with
  | addOne e => exact add_inv c e h
  | addMany es => exact add_many_inv es (c, 0) h
  | removeDups => exact remove_duplicates_inv c
  | sortByDate rev => exact sort_by_date_inv c rev h

/-- C4 amended: from any collection satisfying the sync and uniqueness
invariant, any sequence of Add and AddMany with duplicate checking
enabled, RemoveDuplicates and SortByDate keeps the invariant after
every operation.  (Add with checking disabled does not, see the
counterexample.) -/
theorem C4_invariant_preserved (ops : List COp) :
    ∀ c : EventCollection, Inv c → Inv (ops.foldl applyOp c) := by
  induction ops with
  | nil => intro c h; exact h
  | cons op t ih => intro c h; exact ih (applyOp c op) (applyOp_inv c op h)

/-- C4 witness: the invariant preservation theorem applied to the empty
collection (whose invariant holds) and a concrete operation sequence. -/
theorem C4_witness :
    Inv ([COp.addOne (mkEvent "Concert in the Park"
        ⟨2025, 7, 25, 19, 0, 0⟩ "Central Park"
        "https://centralpark.com/concert" none none none
        ⟨2025, 7, 1, 0, 0, 0⟩ none),
      COp.removeDups, COp.sortByDate false].foldl applyOp
      (EventCollection.init [])) :=
  C4_invariant_preserved _ (EventCollection.init [])
    (by refine ⟨?_, ?_, ?_⟩
        · simp [EventCollection.init]
        · intro k e hk
          simp [EventCollection.init, buildIndex] at hk
        · simp [EventCollection.init])

/-- C4 counterexample: with duplicate checking disabled, adding the
same record twice is a reachable state in which two records of the
sequence share an event id, so the claimed invariant fails for Add with
either check_duplicates value. -/
theorem C4_counterexample :
    ¬ (((((EventCollection.init []).add
        (mkEvent "Concert in the Park" ⟨2025, 7, 25, 19, 0, 0⟩
          "Central Park" "https://centralpark.com/concert" none none none
          ⟨2025, 7, 1, 0, 0, 0⟩ none) false).1.add
        (mkEvent "Concert in the Park" ⟨2025, 7, 25, 19, 0, 0⟩
          "Central Park" "https://centralpark.com/concert" none none none
          ⟨2025, 7, 1, 0, 0, 0⟩ none) false).1.events.map
        (fun e => e.event_id)).Nodup) := by
  decide

/-- C5: with checking enabled, add rejects exactly when has_duplicate
holds, leaving the sequence and the index untouched and returning
false; otherwise it appends the record, registers it under its id and
returns true; consequently inserting the same record twice into an
empty collection leaves size 1, the second call returning false. -/
theorem add_reject {c : EventCollection} {e : EventModel}
    (h : c.has_duplicate e true = true) : c.add e true = (c, false) := by
  simp [EventCollection.add, h]

theorem add_accept {c : EventCollection} {e : EventModel}
    (h : c.has_duplicate e true = false) :
    c.add e true =
      ({ events := c.events ++ [e], idIndex := updIndex c.idIndex e },
       true) := by
  simp [EventCollection.add, h]

theorem C5_add_semantics :
    (∀ (c : EventCollection) (e : EventModel),
      (c.has_duplicate e true = true →
        (c.add e true).2 = false ∧
        (c.add e true).1.events = c.events ∧
        (c.add e true).1.idIndex = c.idIndex) ∧
      (c.has_duplicate e true = false →
        (c.add e true).2 = true ∧
        (c.add e true).1.events = c.events ++ [e] ∧
        (c.add e true).1.idIndex e.event_id = some e)) ∧
    ∀ e : EventModel,
      (((EventCollection.init []).add e true).1.add e true).2 = false ∧
      (((EventCollection.init []).add e true).1.add e true).1.events.length
        = 1 := by
  constructor
  · intro c e
    constructor
    · intro h
      rw [add_reject h]
      exact ⟨rfl, rfl, rfl⟩
    · intro h
      rw [add_accept h]
      refine ⟨rfl, rfl, ?_⟩
      show updIndex c.idIndex e e.event_id = some e
      unfold updIndex
      rw [if_pos rfl]
  · intro e
    have h1 : (EventCollection.init []).has_duplicate e true = false := by
      simp [EventCollection.has_duplicate, EventCollection.init, buildIndex]
    have hadd := add_accept h1
    have h2 : ((EventCollection.init []).add e true).1.has_duplicate e true
        = true := by
      rw [hadd]
      simp [EventCollection.has_duplicate, updIndex]
    have h3 := add_reject h2
    constructor
    · rw [h3]
    · rw [h3]
      show ((EventCollection.init []).add e true).1.events.length = 1
      rw [hadd]
      show ((EventCollection.init []).events ++ [e]).length = 1
      simp [EventCollection.init]

/-- C5 witness: the rejecting branch of the theorem applied to a
concrete collection already holding the record, and the accepting
branch applied to the empty collection. -/
theorem C5_witness :
    ((EventCollection.init
        [mkEvent "Art Exhibition" ⟨2025, 7, 28, 14, 0, 0⟩ "MoMA"
          "https://moma.org/exhibition" none none none
          ⟨2025, 7, 1, 0, 0, 0⟩ none]).add
        (mkEvent "Art Exhibition" ⟨2025, 7, 28, 14, 0, 0⟩ "MoMA"
          "https://moma.org/exhibition" none none none
          ⟨2025, 7, 1, 0, 0, 0⟩ none) true).2 = false ∧
      ((EventCollection.init
        [mkEvent "Art Exhibition" ⟨2025, 7, 28, 14, 0, 0⟩ "MoMA"
          "https://moma.org/exhibition" none none none
          ⟨2025, 7, 1, 0, 0, 0⟩ none]).add
        (mkEvent "Art Exhibition" ⟨2025, 7, 28, 14, 0, 0⟩ "MoMA"
          "https://moma.org/exhibition" none none none
          ⟨2025, 7, 1, 0, 0, 0⟩ none) true).1.events =
        (EventCollection.init
        [mkEvent "Art Exhibition" ⟨2025, 7, 28, 14, 0, 0⟩ "MoMA"
          "https://moma.org/exhibition" none none none
          ⟨2025, 7, 1, 0, 0, 0⟩ none]).events ∧
      ((EventCollection.init
        [mkEvent "Art Exhibition" ⟨2025, 7, 28, 14, 0, 0⟩ "MoMA"
          "https://moma.org/exhibition" none none none
          ⟨2025, 7, 1, 0, 0, 0⟩ none]).add
        (mkEvent "Art Exhibition" ⟨2025, 7, 28, 14, 0, 0⟩ "MoMA"
          "https://moma.org/exhibition" none none none
          ⟨2025, 7, 1, 0, 0, 0⟩ none) true).1.idIndex =
        (EventCollection.init
        [mkEvent "Art Exhibition" ⟨2025, 7, 28, 14, 0, 0⟩ "MoMA"
          "https://moma.org/exhibition" none none none
          ⟨2025, 7, 1, 0, 0, 0⟩ none]).idIndex :=
  (C5_add_semantics.1 _ _).1 (by decide)

/-! ## Serialization round trip -/

theorem digChar_mod_isDigit (n : Nat) : (digChar (n % 10)).isDigit = true := by
  have h : n % 10 < 10 := Nat.mod_lt _ (by omega)
  interval_cases h2 : n % 10 <;> decide

theorem digVal_digChar_mod (n : Nat) : digVal (digChar (n % 10)) = n % 10 := by
  have h : n % 10 < 10 := Nat.mod_lt _ (by omega)
  interval_cases h2 : n % 10 <;> simp [digChar, digVal]

theorem daysInMonth_le (y m : Nat) : daysInMonth y m ≤ 31 := by
  unfold daysInMonth
  split
  · split <;> omega
  · split <;> omega

/-- Parsing inverts printing on every datetime the datetime constructor
accepts. -/
theorem fromIso_isoDateTime (d : DateTime) (h : ValidDT d) :
    fromIso (isoDateTime d) = some d := by
  obtain ⟨hy1, hy2, hm1, hm2, hd1, hd2, hh, hmi, hs⟩ := h
  show fromIso (String.mk (pad4 d.year ++ '-' :: pad2 d.month ++ '-' ::
    pad2 d.day ++ 'T' :: pad2 d.hour ++ ':' :: pad2 d.minute ++ ':' ::
    pad2 d.second)) = some d
  simp only [pad4, pad2, List.cons_append, List.nil_append]
  unfold fromIso
  simp only [digChar_mod_isDigit, Bool.and_self, Bool.and_true, if_true,
    digVal_digChar_mod]
  have hd31 : daysInMonth d.year d.month ≤ 31 := daysInMonth_le _ _
  have ey : d.year / 1000 % 10 * 1000 + d.year / 100 % 10 * 100 +
      d.year / 10 % 10 * 10 + d.year % 10 = d.year := by omega
  have em : d.month / 10 % 10 * 10 + d.month % 10 = d.month := by omega
  have ed : d.day / 10 % 10 * 10 + d.day % 10 = d.day := by omega
  have eh : d.hour / 10 % 10 * 10 + d.hour % 10 = d.hour := by omega
  have emi : d.minute / 10 % 10 * 10 + d.minute % 10 = d.minute := by omega
  have es : d.second / 10 % 10 * 10 + d.second % 10 = d.second := by omega
  rw [ey, em, ed, eh, emi, es]
  have hvd : ValidDT ⟨d.year, d.month, d.day, d.hour, d.minute, d.second⟩ :=
    ⟨hy1, hy2, hm1, hm2, hd1, hd2, hh, hmi, hs⟩
  rw [if_pos hvd]

/-- A supplied nonempty id is kept by construction. -/
theorem mkEvent_given_id (name : String) (d : DateTime) (loc url : String)
    (ce de so : Option String) (sc : DateTime) (eid : String)
    (h : eid ≠ "") :
    (mkEvent name d loc url ce de so sc (some eid)).event_id = eid := by
  simp [mkEvent, h]

/-- A record with valid dates and a nonempty id deserializes from its
own dictionary, to a record with the same id. -/
theorem from_dict_to_dict (now : DateTime) (e : EventModel)
    (h1 : ValidDT e.date) (h2 : ValidDT e.scraped_at) :
    from_dict now e.to_dict = some (mkEvent e.name e.date e.location
      e.source_url e.contact_email e.description e.source e.scraped_at
      (some e.event_id)) := by
  unfold from_dict EventModel.to_dict
  simp only [fromIso_isoDateTime _ h1, fromIso_isoDateTime _ h2]

/-- Well-formed record: what construction guarantees and round
tripping needs. -/
def WFEvent (e : EventModel) : Prop :=
  e.event_id ≠ "" ∧ ValidDT e.date ∧ ValidDT e.scraped_at

instance (e : EventModel) : Decidable (WFEvent e) := by
  unfold WFEvent; infer_instance

theorem round_trip_aux (now : DateTime) : ∀ es : List EventModel,
    (∀ e ∈ es, WFEvent e) →
    ∃ l : List EventModel,
      (es.map EventModel.to_dict).mapM (from_dict now) = some l ∧
      l.length = es.length ∧
      l.map (fun e => e.event_id) = es.map (fun e => e.event_id) := by
  intro es
  induction es with
  | nil => intro _; exact ⟨[], rfl, rfl, rfl⟩
  | cons e t ih =>
    intro h
    obtain ⟨hid, hd1, hd2⟩ := h e (List.mem_cons_self _ _)
    obtain ⟨l, hl, hlen, hmap⟩ := ih fun x hx => h x (List.mem_cons_of_mem _ hx)
    refine ⟨mkEvent e.name e.date e.location e.source_url e.contact_email
      e.description e.source e.scraped_at (some e.event_id) :: l, ?_, ?_, ?_⟩
    · rw [List.map_cons, List.mapM_cons, from_dict_to_dict now e hd1 hd2, hl]
      rfl
    · simp [hlen]
    · rw [List.map_cons, List.map_cons, hmap,
        mkEvent_given_id _ _ _ _ _ _ _ _ _ hid]

/-- C8: projecting a collection of well-formed records through to_dict
and deserializing each dictionary with from_dict succeeds and yields a
collection of the same size whose event id sequence (hence id set) is
unchanged. -/
theorem C8_round_trip (c : EventCollection) (now : DateTime)
    (h : ∀ e ∈ c.events, WFEvent e) :
    ∃ l : List EventModel,
      (c.to_list).mapM (from_dict now) = some l ∧
      (EventCollection.init l).events.length = c.events.length ∧
      (EventCollection.init l).events.map (fun e => e.event_id) =
        c.events.map (fun e => e.event_id) := by
  obtain ⟨l, hl, hlen, hmap⟩ := round_trip_aux now c.events h
  exact ⟨l, hl, hlen, hmap⟩

/-- C8 witness: the round trip theorem applied to a concrete two-record
collection. -/
theorem C8_witness :
    (∀ e ∈ (EventCollection.init
      [mkEvent "Concert in the Park" ⟨2025, 7, 25, 19, 0, 0⟩ "Central Park"
        "https://centralpark.com/concert" none
        (some "Free summer concert series") none ⟨2025, 7, 1, 8, 30, 0⟩ none,
       mkEvent "Art Exhibition" ⟨2025, 7, 28, 14, 0, 0⟩ "MoMA"
        "https://moma.org/exhibition" none none (some "MoMA")
        ⟨2025, 7, 1, 8, 30, 0⟩ none]).events, WFEvent e) ∧
    ∃ l : List EventModel,
      ((EventCollection.init
        [mkEvent "Concert in the Park" ⟨2025, 7, 25, 19, 0, 0⟩ "Central Park"
          "https://centralpark.com/concert" none
          (some "Free summer concert series") none ⟨2025, 7, 1, 8, 30, 0⟩ none,
         mkEvent "Art Exhibition" ⟨2025, 7, 28, 14, 0, 0⟩ "MoMA"
          "https://moma.org/exhibition" none none (some "MoMA")
          ⟨2025, 7, 1, 8, 30, 0⟩ none]).to_list).mapM
        (from_dict ⟨2025, 8, 1, 0, 0, 0⟩) = some l ∧
      (EventCollection.init l).events.length =
        (EventCollection.init
        [mkEvent "Concert in the Park" ⟨2025, 7, 25, 19, 0, 0⟩ "Central Park"
          "https://centralpark.com/concert" none
          (some "Free summer concert series") none ⟨2025, 7, 1, 8, 30, 0⟩ none,
         mkEvent "Art Exhibition" ⟨2025, 7, 28, 14, 0, 0⟩ "MoMA"
          "https://moma.org/exhibition" none none (some "MoMA")
          ⟨2025, 7, 1, 8, 30, 0⟩ none]).events.length ∧
      (EventCollection.init l).events.map (fun e => e.event_id) =
        (EventCollection.init
        [mkEvent "Concert in the Park" ⟨2025, 7, 25, 19, 0, 0⟩ "Central Park"
          "https://centralpark.com/concert" none
          (some "Free summer concert series") none ⟨2025, 7, 1, 8, 30, 0⟩ none,
         mkEvent "Art Exhibition" ⟨2025, 7, 28, 14, 0, 0⟩ "MoMA"
          "https://moma.org/exhibition" none none (some "MoMA")
          ⟨2025, 7, 1, 8, 30, 0⟩ none]).events.map (fun e => e.event_id) :=
  ⟨by decide, C8_round_trip _ ⟨2025, 8, 1, 0, 0, 0⟩ (by decide)⟩

end NycEvents
